import Mathlib

/-!
Shallow embedding of `compiler/rustc_hir_analysis/src/outlives/implicit_infer.rs`:
the fixed-point inference of implicit outlives predicates for aggregate
definitions (structs/enums/unions).

The file `implicit_infer.rs` is embedded function by function
(`infer_predicates`, `insert_required_predicates_to_be_wf`,
`check_explicit_predicates`).  Two collaborators of that file live in
`outlives/utils.rs` and `outlives/explicit.rs`, which are not part of the
sources; those two are modelled from the specification (see the doc comments
of `insert_outlives_predicate` and `explicit_predicates_of`).
-/

namespace RustcOutlives

/-- Definition ids (`DefId`). -/
abbrev DefId := Nat

/-- Source locations (`Span`). -/
abbrev Span := Nat

/-- Regions (`ty::Region`): either an early-bound region parameter of the
enclosing definition, referred to by its index in the generic parameter
list, or `'static`.  Opaque comparable values, as the spec requires. -/
inductive Region where
  | rparam : Nat → Region
  | rstatic : Region
deriving DecidableEq, Repr

/-- Generic arguments and type expressions (`GenericArg` / `Ty`), collapsed
into a single tagged union.  Rustc distinguishes `GenericArgKind::Type`,
`::Lifetime` and `::Const`; here the type shapes relevant to
`insert_required_predicates_to_be_wf` are constructors next to the
`lifetime` and `konst` argument kinds:

* `ref r t`      — `ty::Ref(region, ty, _)`, a reference `&'r T`;
* `adt d args`   — `ty::Adt(adt, substs)`, an applied nominal definition;
* `dynamic p`    — `ty::Dynamic(obj, ..)`; `p` is `obj.principal()`, the
  optional principal existential trait reference (trait id together with
  its substs, which do not include `Self`);
* `proj tr args` — `ty::Projection(obj)`; `tr` stands for
  `tcx.parent(obj.item_def_id)` (the owning trait) and `args` for
  `obj.substs`;
* `tparam i s`   — `ty::Param`; `s` marks the reserved `Self` parameter
  (`tcx.types.self_param`, index 0 with the name `Self`), which is never the
  name of a parameter of an aggregate definition;
* `usize`        — `tcx.types.usize`, the placeholder substituted for
  `Self` of a trait object;
* `prim`         — every other type shape (the `_ => {}` arm).

Constants are opaque (their types are not modelled, so they contribute no
nested walk nodes). -/
inductive GenArg where
  | lifetime : Region → GenArg
  | konst : Nat → GenArg
  | ref : Region → GenArg → GenArg
  | adt : DefId → List GenArg → GenArg
  | dynamic : Option (DefId × List GenArg) → GenArg
  | proj : DefId → List GenArg → GenArg
  | tparam : Nat → Bool → GenArg
  | usize : GenArg
  | prim : GenArg
deriving Repr

mutual
/-- Boolean structural equality on generic arguments (the derived handler
does not support this nested inductive). -/
def beqArg : GenArg → GenArg → Bool
  | GenArg.lifetime r, GenArg.lifetime r' => r = r'
  | GenArg.konst n, GenArg.konst n' => n = n'
  | GenArg.ref r t, GenArg.ref r' t' => decide (r = r') && beqArg t t'
  | GenArg.adt d as, GenArg.adt d' as' => decide (d = d') && beqArgList as as'
  | GenArg.dynamic none, GenArg.dynamic none => true
  | GenArg.dynamic (some (d, as)), GenArg.dynamic (some (d', as')) =>
    decide (d = d') && beqArgList as as'
  | GenArg.proj tr as, GenArg.proj tr' as' => decide (tr = tr') && beqArgList as as'
  | GenArg.tparam i s, GenArg.tparam i' s' => decide (i = i') && decide (s = s')
  | GenArg.usize, GenArg.usize => true
  | GenArg.prim, GenArg.prim => true
  | _, _ => false

def beqArgList : List GenArg → List GenArg → Bool
  | [], [] => true
  | a :: as, b :: bs => beqArg a b && beqArgList as bs
  | _, _ => false
end

mutual
theorem beqArg_iff : ∀ a b : GenArg, beqArg a b = true ↔ a = b
  | GenArg.lifetime r, b => by
    cases b <;> simp [beqArg]
  | GenArg.konst n, b => by
    cases b <;> simp [beqArg]
  | GenArg.ref r t, b => by
    cases b <;> simp [beqArg, beqArg_iff t]
  | GenArg.adt d as, b => by
    cases b <;> simp [beqArg, beqArgList_iff as]
  | GenArg.dynamic none, b => by
    cases b with
    | dynamic p => cases p with
      | none => simp [beqArg]
      | some q => simp [beqArg]
    | _ => simp [beqArg]
  | GenArg.dynamic (some (d, as)), b => by
    cases b with
    | dynamic p => cases p with
      | none => simp [beqArg]
      | some q => cases q with
        | mk d' as' => simp [beqArg, beqArgList_iff as]
    | _ => simp [beqArg]
  | GenArg.proj tr as, b => by
    cases b <;> simp [beqArg, beqArgList_iff as]
  | GenArg.tparam i s, b => by
    cases b <;> simp [beqArg]
  | GenArg.usize, b => by
    cases b <;> simp [beqArg]
  | GenArg.prim, b => by
    cases b <;> simp [beqArg]

theorem beqArgList_iff : ∀ xs ys : List GenArg, beqArgList xs ys = true ↔ xs = ys
  | [], ys => by cases ys <;> simp [beqArgList]
  | x :: xs, ys => by
    cases ys with
    | nil => simp [beqArgList]
    | cons y ys => simp [beqArgList, beqArg_iff x, beqArgList_iff xs]
end

instance : DecidableEq GenArg := fun a b =>
  decidable_of_iff (beqArg a b = true) (beqArg_iff a b)

/-- Embeds `tcx.types.self_param`: the `Self` type parameter (index 0, name
`Self`). -/
def selfTy : GenArg := GenArg.tparam 0 true

/-- Substitute generic arguments for a region: a region parameter of index
`i` becomes the `i`-th supplied argument (when that argument is a region);
`'static` is unchanged. -/
def substRegion (s : List GenArg) : Region → Region
  | Region.rparam i =>
    match s.get? i with
    | some (GenArg.lifetime r) => r
    | _ => Region.rparam i
  | Region.rstatic => Region.rstatic

mutual
/-- Embeds `EarlyBinder::subst`: replace every generic parameter by the
corresponding supplied argument. -/
def substArg (s : List GenArg) : GenArg → GenArg
  | GenArg.lifetime r => GenArg.lifetime (substRegion s r)
  | GenArg.konst n => GenArg.konst n
  | GenArg.ref r t => GenArg.ref (substRegion s r) (substArg s t)
  | GenArg.adt d args => GenArg.adt d (substArgs s args)
  | GenArg.dynamic none => GenArg.dynamic none
  | GenArg.dynamic (some (d, args)) => GenArg.dynamic (some (d, substArgs s args))
  | GenArg.proj tr args => GenArg.proj tr (substArgs s args)
  | GenArg.tparam i sf => (s.get? i).getD (GenArg.tparam i sf)
  | GenArg.usize => GenArg.usize
  | GenArg.prim => GenArg.prim

def substArgs (s : List GenArg) : List GenArg → List GenArg
  | [] => []
  | a :: rest => substArg s a :: substArgs s rest
end

mutual
/-- Embeds `Ty::walk` / `GenericArg::walk`: the argument itself followed by every
generic argument nested inside it, in depth-first preorder. -/
def walkArg : GenArg → List GenArg
  | GenArg.lifetime r => [GenArg.lifetime r]
  | GenArg.konst n => [GenArg.konst n]
  | GenArg.ref r t => GenArg.ref r t :: GenArg.lifetime r :: walkArg t
  | GenArg.adt d args => GenArg.adt d args :: walkArgs args
  | GenArg.dynamic none => [GenArg.dynamic none]
  | GenArg.dynamic (some (d, args)) => GenArg.dynamic (some (d, args)) :: walkArgs args
  | GenArg.proj tr args => GenArg.proj tr args :: walkArgs args
  | GenArg.tparam i sf => [GenArg.tparam i sf]
  | GenArg.usize => [GenArg.usize]
  | GenArg.prim => [GenArg.prim]

def walkArgs : List GenArg → List GenArg
  | [] => []
  | a :: rest => walkArg a ++ walkArgs rest
end

/-- An outlives predicate `ty::OutlivesPredicate(subject, region)`, “the
subject outlives the region”.  The subject is a generic argument, as in
`RequiredPredicates`' key type.  Equality is structural on the pair. -/
abbrev Pred := GenArg × Region

/-- A provenance stack (`DefStack`): the chain of (definition id, span)
pairs recording the nested-definition traversals that produced a derived
predicate. -/
abbrev DefStack := List (DefId × Span)

/-- Embeds `RequiredPredicates` (from `outlives/utils.rs`): an insertion-ordered
map from outlives predicates to provenance stacks, with uniqueness on the
predicate component. -/
abbrev RequiredPredicates := List (Pred × DefStack)

/-- The definition ids appearing in a provenance stack. -/
def stackDids (s : DefStack) : List DefId := s.map Prod.fst

/-- Key lookup in a `RequiredPredicates` map. -/
def rpLookup (rp : RequiredPredicates) (k : Pred) : Option DefStack :=
  match rp.find? (fun e => e.1 = k) with
  | some e => some e.2
  | none => none

/-- Whether a predicate key is already present. -/
def rpHasKey (rp : RequiredPredicates) (k : Pred) : Bool :=
  rp.any (fun e => e.1 = k)

/-- Deduplicating insertion: a no-op when an equal predicate is already
present (first-seen provenance is retained), otherwise an append at the
end, preserving insertion order. -/
def rpInsert (rp : RequiredPredicates) (k : Pred) (s : DefStack) : RequiredPredicates :=
  if rpHasKey rp k then rp else rp ++ [(k, s)]

/-- Modelled from the spec: `insert_outlives_predicate` lives in
`outlives/utils.rs`, which is not among the sources.  Per §4.2 and the
comments at the call sites, it records the predicate `(subject, region)`
into the owning definition's set; the provenance is a copy of the supplied
stack (empty for `None`) with `(self_did, span)` pushed; insertion
deduplicates on the predicate component, keeping the first-seen
provenance. -/
def insert_outlives_predicate (subject : GenArg) (r : Region) (self_did : DefId)
    (span : Span) (stack : Option DefStack) (rp : RequiredPredicates) :
    RequiredPredicates :=
  rpInsert rp (subject, r) (stack.getD [] ++ [(self_did, span)])

/-- A field of an aggregate definition: its type and its span
(`tcx.type_of(field_def.did)`, `tcx.def_span(field_def.did)`). -/
structure FieldDef where
  ty : GenArg
  span : Span
deriving DecidableEq, Repr

/-- A locally-defined aggregate definition (struct/enum/union) with its
fields.  Generic parameters are referred to positionally from the field
types, so no separate parameter list is needed. -/
structure AdtDefn where
  did : DefId
  fields : List FieldDef
deriving DecidableEq, Repr

/-- An explicit (user-written) outlives bound: subject, region and the
span of the bound. -/
abbrev ExplicitBound := Pred × Span

/-- The program: the aggregate items of the crate in `tcx.hir().items()`
order (items of other kinds contribute nothing and are omitted), together
with the table of user-written outlives where-bounds of every definition
(aggregates and traits), already restricted to outlives shape. -/
structure Program where
  adts : List AdtDefn
  explicitBounds : List (DefId × List ExplicitBound)
deriving DecidableEq, Repr

/-- The explicit outlives bounds recorded for a definition (empty when the
definition declares none). -/
def explicitList (p : Program) (did : DefId) : List ExplicitBound :=
  match p.explicitBounds.find? (fun e => e.1 = did) with
  | some e => e.2
  | none => []

/-- Modelled from the spec: `ExplicitPredicatesMap::explicit_predicates_of`
lives in `outlives/explicit.rs`, which is not among the sources.  Per §4.3
it is a pure memoized function from a definition to the predicate set of
its own user-written outlives bounds, each entry carrying a one-element
provenance stack `(the definition whose bound this is, the bound's span)`;
the result depends only on the referenced definition.  Memoization is
semantically invisible and is not modelled. -/
def explicit_predicates_of (p : Program) (did : DefId) : RequiredPredicates :=
  (explicitList p did).foldl (fun rp b => rpInsert rp b.1 [(did, b.2)]) []

/-- Embeds `GlobalInferredOutlives`: the map from definition ids to their
(possibly partial) inferred predicate sets.  The algorithm only ever looks
entries up by key and replaces single entries, so an association list is a
faithful rendering of the `FxHashMap`. -/
abbrev Global := List (DefId × RequiredPredicates)

instance : DecidableEq (DefId × RequiredPredicates) := instDecidableEqProd

instance : DecidableEq Global := List.hasDecEq

instance : DecidableEq (Option Global) := fun a b =>
  match a, b with
  | none, none => isTrue rfl
  | none, some _ => isFalse (fun h => Option.noConfusion h)
  | some _, none => isFalse (fun h => Option.noConfusion h)
  | some x, some y =>
    if h : x = y then isTrue (by rw [h])
    else isFalse (fun hc => h (Option.some.inj hc))

/-- Embeds `global_inferred_outlives.get(&did)`. -/
def globalLookup (g : Global) (did : DefId) : Option RequiredPredicates :=
  match g.find? (fun e => e.1 = did) with
  | some e => some e.2
  | none => none

/-- Embeds `global_inferred_outlives.insert(did, rp)`: replace the entry in place
when the key is present, otherwise add it. -/
def globalInsert (g : Global) (did : DefId) (rp : RequiredPredicates) : Global :=
  if g.any (fun e => e.1 = did) then
    g.map (fun e => if e.1 = did then (did, rp) else e)
  else
    g ++ [(did, rp)]

/-- The size `map_or(0, |p| p.0.len())` of a definition's stored predicate
set. -/
def gSize (g : Global) (did : DefId) : Nat :=
  ((globalLookup g did).map List.length).getD 0

/-- Whether a generic argument unpacks to `GenericArgKind::Lifetime` or
`::Const` (rather than `::Type`). -/
def isLifetimeOrConst : GenArg → Bool
  | GenArg.lifetime _ => true
  | GenArg.konst _ => true
  | _ => false

/-- Embeds `rebind(..).subst(tcx, substs)` applied to a whole outlives
predicate. -/
def substPred (s : List GenArg) (P : Pred) : Pred :=
  (substArg s P.1, substRegion s P.2)

/-- The body of `check_explicit_predicates`' `for` loop (lines 349–407),
acting on one explicit predicate entry: skip the entry — when
`ignored_self_ty` is set — if its subject is a type whose walk mentions
that `Self` placeholder (the check runs on the *unsubstituted* predicate);
otherwise extract the bound's span from the entry's provenance stack,
substitute `substs` into the predicate and record it.  The source extracts
the span with `stack.last().unwrap()`; the `none` branch here is the panic
of that `unwrap`, which `ceStepOpt` below models explicitly and which
cannot arise for the one-element stacks `explicit_predicates_of`
produces. -/
def ceStep (self_did : DefId) (substs : List GenArg)
    (ignored_self_ty : Option GenArg) (rp : RequiredPredicates)
    (e : Pred × DefStack) : RequiredPredicates :=
  if (match ignored_self_ty with
      | some sty => !isLifetimeOrConst e.1.1 && (walkArg e.1.1).any (fun a => a = sty)
      | none => false) then
    rp
  else
    match e.2.getLast? with
    | none => rp
    | some q =>
      let predicate := substPred substs e.1
      insert_outlives_predicate predicate.1 predicate.2 self_did q.2 none rp

/-- Embeds `check_explicit_predicates` (lines 326–408 of `implicit_infer.rs`):
fold the explicit predicates of `def_id` into `required_predicates`. -/
def check_explicit_predicates (p : Program) (self_did : DefId) (def_id : DefId)
    (substs : List GenArg) (ignored_self_ty : Option GenArg)
    (rp : RequiredPredicates) : RequiredPredicates :=
  (explicit_predicates_of p def_id).foldl (ceStep self_did substs ignored_self_ty) rp

/-- Processing of one walked generic argument: the body of the
`for arg in field_ty.walk()` loop of `insert_required_predicates_to_be_wf`
(lines 116–308). -/
def processArg (p : Program) (self_did : DefId) (field_span : Span) (g : Global)
    (rp : RequiredPredicates) (a : GenArg) : RequiredPredicates :=
  match a with
  | GenArg.lifetime _ => rp
  | GenArg.konst _ => rp
  | GenArg.ref r rty =>
    insert_outlives_predicate rty r self_did field_span none rp
  | GenArg.adt adt substs =>
    let rp :=
      match globalLookup g adt with
      | some unsubstituted_predicates =>
        unsubstituted_predicates.foldl
          (fun rp e =>
            if (stackDids e.2).any (fun did => did = self_did) then
              rp
            else
              let predicate := substPred substs e.1
              insert_outlives_predicate predicate.1 predicate.2 self_did field_span
                (some e.2) rp)
          rp
      | none => rp
    check_explicit_predicates p self_did adt substs none rp
  | GenArg.dynamic (some (trdid, args)) =>
    check_explicit_predicates p self_did trdid (GenArg.usize :: args) (some selfTy) rp
  | GenArg.dynamic none => rp
  | GenArg.proj trdid args =>
    check_explicit_predicates p self_did trdid args none rp
  | GenArg.tparam _ _ => rp
  | GenArg.usize => rp
  | GenArg.prim => rp

/-- Embeds `insert_required_predicates_to_be_wf` (lines 107–309): walk the field
type and process every visited generic argument in order. -/
def insert_required_predicates_to_be_wf (p : Program) (self_did : DefId)
    (field_ty : GenArg) (field_span : Span) (g : Global)
    (rp : RequiredPredicates) : RequiredPredicates :=
  (walkArg field_ty).foldl (processArg p self_did field_span g) rp

/-- The per-item recomputation of one round (lines 37–61): starting from an
empty `item_required_predicates`, process every field of the item against
the current global store. -/
def computeItem (p : Program) (g : Global) (a : AdtDefn) : RequiredPredicates :=
  a.fields.foldl
    (fun rp f => insert_required_predicates_to_be_wf p a.did f.ty f.span g rp) []

/-- One item of a round (lines 32–96): recompute the item's predicates and
replace the stored entry — setting the progress flag — exactly when the
recomputed set is strictly larger than the stored one. -/
def roundStep (p : Program) (acc : Global × Bool) (a : AdtDefn) : Global × Bool :=
  let rp := computeItem p acc.1 a
  let item_predicates_len := gSize acc.1 a.did
  if rp.length > item_predicates_len then (globalInsert acc.1 a.did rp, true)
  else acc

/-- One full round of the `'outer` loop: visit every item, threading the
store (updates made earlier in the round are visible to later items) and
the `predicates_added` flag. -/
def inferRound (p : Program) (g : Global) : Global × Bool :=
  p.adts.foldl (roundStep p) (g, false)

/-- The `'outer: loop` of `infer_predicates` (lines 26–102), with explicit
fuel: run rounds until one adds no predicates, and return `none` when the
fuel runs out first.  `infer_predicates` supplies enough fuel
(`inferFuel`), and the termination theorem shows that fuel is never
exhausted. -/
def inferLoop (p : Program) : Nat → Global → Option Global
  | 0, _ => none
  | fuel + 1, g =>
    let r := inferRound p g
    if r.2 then inferLoop p fuel r.1 else some r.1

/-! A finite universe of candidate predicates, used to bound the number of
progress-making rounds and hence to supply sufficient fuel to `inferLoop`.
Every predicate the analysis can store for a definition `d` with a
provenance stack of length `n` lies in `Ulevel p n d` (proved below), and
the cycle guard bounds stack lengths by the number of definitions. -/

/-- The ids of the aggregate items of the program. -/
def adtDids (p : Program) : List DefId := p.adts.map AdtDefn.did

/-- All fields declared by items carrying a given id. -/
def fieldsOf (p : Program) (d : DefId) : List FieldDef :=
  (p.adts.filter (fun a => a.did = d)).flatMap AdtDefn.fields

/-- Every generic argument walked while processing some field of `d`. -/
def fieldNodes (p : Program) (d : DefId) : List GenArg :=
  (fieldsOf p d).flatMap (fun f => walkArg f.ty)

/-- The candidate predicates one walked node can contribute with a
one-element provenance stack: the reference rule, and the substituted
explicit bounds of an applied definition, trait object or projection
(unfiltered — a superset suffices for the bound). -/
def basePredsOfNode (p : Program) : GenArg → List Pred
  | GenArg.ref r rty => [(rty, r)]
  | GenArg.adt d' substs => (explicitList p d').map (fun b => substPred substs b.1)
  | GenArg.dynamic (some (tr, args)) =>
    (explicitList p tr).map (fun b => substPred (GenArg.usize :: args) b.1)
  | GenArg.proj tr args => (explicitList p tr).map (fun b => substPred args b.1)
  | _ => []

/-- All candidate predicates of `d` with one-element stacks. -/
def baseOf (p : Program) (d : DefId) : List Pred :=
  (fieldNodes p d).flatMap (basePredsOfNode p)

/-- The candidate predicates one walked node contributes by substitution
into predicates already derived for a nested definition. -/
def stepPredsOfNode (U : DefId → List Pred) : GenArg → List Pred
  | GenArg.adt d' substs => (U d').map (substPred substs)
  | _ => []

/-- One closure step of the candidate universe. -/
def stepU (p : Program) (U : DefId → List Pred) (d : DefId) : List Pred :=
  baseOf p d ++ (fieldNodes p d).flatMap (stepPredsOfNode U)

/-- Candidate predicates derivable with provenance stacks of length at most
`n`. -/
def Ulevel (p : Program) : Nat → DefId → List Pred
  | 0, _ => []
  | n + 1, d => stepU p (Ulevel p n) d

/-- The number of distinct aggregate ids. -/
def didCard (p : Program) : Nat := (adtDids p).dedup.length

/-- An upper bound on the size a stored predicate set for `d` can reach. -/
def capD (p : Program) (d : DefId) : Nat :=
  (Ulevel p (didCard p) d).dedup.length

/-- Fuel that the termination proof shows suffices for `inferLoop`. -/
def inferFuel (p : Program) : Nat :=
  (((adtDids p).dedup).map (capD p)).sum + 1

/-- Embeds `infer_predicates` (lines 19–105): run rounds from the empty store
until a round adds no predicates.  The fuelled loop returns `none` when
the fuel is exhausted; the termination theorem shows `inferFuel` is always
enough, so this models the unbounded `'outer: loop` faithfully. -/
def infer_predicates (p : Program) : Option Global :=
  inferLoop p (inferFuel p) []

/-! Concrete programs used by the example-driven claims. -/

/-- Embeds `struct Foo<'a, T> { field1: Bar<'a, T> }` — `Foo` is id 0, its
parameters are `'a` (index 0) and `T` (index 1), and the field span is
10. -/
def fooDefn : AdtDefn :=
  { did := 0,
    fields := [{ ty := GenArg.adt 1 [GenArg.lifetime (Region.rparam 0),
                                     GenArg.tparam 1 false],
                 span := 10 }] }

/-- Embeds `struct Bar<'b, U> { field2: &'b U }` — `Bar` is id 1, its parameters
are `'b` (index 0) and `U` (index 1), and the field span is 20. -/
def barDefn : AdtDefn :=
  { did := 1,
    fields := [{ ty := GenArg.ref (Region.rparam 0) (GenArg.tparam 1 false),
                 span := 20 }] }

/-- The two-definition program of the transitive-substitution property. -/
def fooBarProg : Program := { adts := [fooDefn, barDefn], explicitBounds := [] }

/-- Embeds `struct C<'c, U, S> { f1: V<'c, U, U, S>, f2: &'c U }` — id 0,
parameters `'c` (0), `U` (1), `S` (2). -/
def cDefn : AdtDefn :=
  { did := 0,
    fields := [{ ty := GenArg.adt 1 [GenArg.lifetime (Region.rparam 0),
                                     GenArg.tparam 1 false, GenArg.tparam 1 false,
                                     GenArg.tparam 2 false],
                 span := 1 },
               { ty := GenArg.ref (Region.rparam 0) (GenArg.tparam 1 false),
                 span := 2 }] }

/-- Embeds `struct V<'v, T0, T1, T2> { g1: C<'v, T0>, g2: &'v T1, g3: &'v T2 }` —
id 1, parameters `'v` (0), `T0` (1), `T1` (2), `T2` (3).  (`C` is applied
to fewer arguments than it declares only to keep the example small; the
analysis never reads the missing argument.) -/
def vDefn : AdtDefn :=
  { did := 1,
    fields := [{ ty := GenArg.adt 0 [GenArg.lifetime (Region.rparam 0),
                                     GenArg.tparam 1 false],
                 span := 3 },
               { ty := GenArg.ref (Region.rparam 0) (GenArg.tparam 2 false),
                 span := 4 },
               { ty := GenArg.ref (Region.rparam 0) (GenArg.tparam 3 false),
                 span := 5 }] }

/-- A mutually-recursive two-definition program on which a definition's
recomputed set at the fixed point is not identical to (indeed loses a
member of) its stored set: the provenance stack stored by `C` for the
predicate `U: 'c` flips, once `V`'s entry exists, from `[(C, _)]` to
`[(V, _), (C, _)]`, after which the cycle guard silently drops `V`'s
two-hop derivation of `T0: 'v` — while `V`'s stored set keeps it, because
a smaller recomputed set never replaces a stored one. -/
def cvProg : Program := { adts := [cDefn, vDefn], explicitBounds := [] }

/-! ### Invariants and auxiliary notions used by the theorems -/

/-- The predicate keys of a `RequiredPredicates` map, in order. -/
def rpKeys (rp : RequiredPredicates) : List Pred := rp.map Prod.fst

/-- Distinctness of the predicate keys (the dedup invariant of §4.4). -/
def keysNodup (rp : RequiredPredicates) : Prop := (rpKeys rp).Nodup

/-- Invariant of a single stored entry, relative to the owning definition
`d`: its provenance stack mentions each definition id at most once, all of
those ids are aggregate ids of the program, and its predicate lies in the
candidate universe at the level given by the stack's length. -/
def EntryOK (p : Program) (d : DefId) (e : Pred × DefStack) : Prop :=
  (stackDids e.2).Nodup ∧ (∀ x ∈ stackDids e.2, x ∈ adtDids p) ∧
    e.1 ∈ Ulevel p e.2.length d

/-- Invariant of a whole predicate set stored for `d`. -/
def RPOk (p : Program) (d : DefId) (rp : RequiredPredicates) : Prop :=
  keysNodup rp ∧ ∀ e ∈ rp, EntryOK p d e

/-- Invariant of the global store. -/
def GOk (p : Program) (g : Global) : Prop :=
  (g.map Prod.fst).Nodup ∧ ∀ x ∈ g, x.1 ∈ adtDids p ∧ RPOk p x.1 x.2

/-- The total stored size, summed over the distinct aggregate ids: the
measure that strictly increases on every progress-making round. -/
def phi (p : Program) (g : Global) : Nat :=
  ((adtDids p).dedup.map (gSize g)).sum

/-- The store after `n` rounds from the empty store (the states the
`'outer` loop steps through). -/
def roundIter (p : Program) : Nat → Global
  | 0 => []
  | n + 1 => (inferRound p (roundIter p n)).1

/-- Variant of `ceStep` with the source's `stack.last().unwrap()` modelled
explicitly: `none` is the panic of the `unwrap`.  Everything else is as in
`ceStep`. -/
def ceStepOpt (self_did : DefId) (substs : List GenArg)
    (ignored_self_ty : Option GenArg) (orp : Option RequiredPredicates)
    (e : Pred × DefStack) : Option RequiredPredicates :=
  match orp with
  | none => none
  | some rp =>
    if (match ignored_self_ty with
        | some sty => !isLifetimeOrConst e.1.1 && (walkArg e.1.1).any (fun a => a = sty)
        | none => false) then
      some rp
    else
      match e.2.getLast? with
      | none => none
      | some q =>
        let predicate := substPred substs e.1
        some (insert_outlives_predicate predicate.1 predicate.2 self_did q.2 none rp)

/-- Variant of `check_explicit_predicates` with the panic of `stack.last().unwrap()`
modelled as `none`. -/
def check_explicit_predicates_opt (p : Program) (self_did : DefId) (def_id : DefId)
    (substs : List GenArg) (ignored_self_ty : Option GenArg)
    (rp : RequiredPredicates) : Option RequiredPredicates :=
  (explicit_predicates_of p def_id).foldl (ceStepOpt self_did substs ignored_self_ty)
    (some rp)

/-- The `ty.walk().any(|arg| arg == self_ty.into())` containment check on
the `Self` placeholder. -/
def mentionsSelf (a : GenArg) : Bool :=
  (walkArg a).any (fun x => x = selfTy)

/-- Generic arguments that neither contribute predicates nor contain
nested arguments: parameters, regions, constants and primitive types.
Used to state example-shaped claims without interference from nested
structure. -/
def inertArg : GenArg → Bool
  | GenArg.lifetime _ => true
  | GenArg.konst _ => true
  | GenArg.tparam _ _ => true
  | GenArg.usize => true
  | GenArg.prim => true
  | _ => false

/-- The store `infer_predicates` returns on `fooBarProg` (checked below):
`Bar ↦ {U: 'b}` and `Foo ↦ {T: 'a}`, each with its provenance. -/
def fooBarFinal : Global :=
  [(1, [((GenArg.tparam 1 false, Region.rparam 0), [(1, 20)])]),
   (0, [((GenArg.tparam 1 false, Region.rparam 0), [(1, 20), (0, 10)])])]

/-- The store `infer_predicates` returns on `cvProg` (checked below). -/
def cvFinal : Global :=
  [(0, [((GenArg.tparam 1 false, Region.rparam 0), [(1, 4), (0, 1)]),
        ((GenArg.tparam 2 false, Region.rparam 0), [(1, 5), (0, 1)])]),
   (1, [((GenArg.tparam 1 false, Region.rparam 0), [(0, 2), (1, 3)]),
        ((GenArg.tparam 2 false, Region.rparam 0), [(1, 4)]),
        ((GenArg.tparam 3 false, Region.rparam 0), [(1, 5)])])]

/-- Embeds `struct MyStruct<'x, X> { field: Box<dyn Trait<'x>> }` for a trait
`Trait<'a> where Self: 'a` — the struct is id 2 with parameters `'x` (0)
and `X` (1); the trait is id 7 with parameters `Self` (0) and `'a` (1) and
declares the explicit bound `Self: 'a` (span 30).  The `Box` wrapper is
immaterial and omitted: the field is the trait object itself. -/
def dynProg : Program :=
  { adts := [{ did := 2,
               fields := [{ ty := GenArg.dynamic
                              (some (7, [GenArg.lifetime (Region.rparam 0)])),
                            span := 40 }] }],
    explicitBounds := [(7, [((selfTy, Region.rparam 1), 30)])] }

/-! ### Fold invariants -/

theorem foldl_inv {α β : Type} {P : β → Prop} (f : β → α → β) :
    ∀ (l : List α) (b : β), P b → (∀ b a, a ∈ l → P b → P (f b a)) → P (l.foldl f b)
  | [], _, hb, _ => hb
  | a :: l, b, hb, h =>
    foldl_inv f l (f b a) (h b a (List.mem_cons_self a l) hb)
      (fun b' a' ha' hb' => h b' a' (List.mem_cons_of_mem a ha') hb')

theorem foldl_estab {α β : Type} {P : β → Prop} (f : β → α → β) :
    ∀ (l : List α) (a : α), a ∈ l → (∀ b a', a' ∈ l → P b → P (f b a')) →
      (∀ b, P (f b a)) → ∀ b, P (l.foldl f b)
  | [], a, ha, _, _, _ => absurd ha (List.not_mem_nil a)
  | x :: l, a, ha, hpres, hest, b => by
    rcases List.mem_cons.mp ha with h | h
    · subst h
      exact foldl_inv f l (f b a) (hest b)
        (fun b' a' ha' hb' => hpres b' a' (List.mem_cons_of_mem _ ha') hb')
    · exact foldl_estab f l a h
        (fun b' a' ha' hb' => hpres b' a' (List.mem_cons_of_mem _ ha') hb') hest (f b x)

/-! ### Basic lemmas on the predicate store -/

theorem find?_append_none {α : Type} (p : α → Bool) :
    ∀ {l₁ : List α} (l₂ : List α), l₁.find? p = none →
      (l₁ ++ l₂).find? p = l₂.find? p := by
  intro l₁
  induction l₁ with
  | nil => intro l₂ _; simp
  | cons a t ih =>
    intro l₂ h
    by_cases hpa : p a = true
    · rw [List.find?_cons_of_pos _ hpa] at h
      cases h
    · rw [List.find?_cons_of_neg _ (by simpa using hpa)] at h
      rw [List.cons_append, List.find?_cons_of_neg _ (by simpa using hpa)]
      exact ih l₂ h

theorem rpHasKey_iff (rp : RequiredPredicates) (k : Pred) :
    rpHasKey rp k = true ↔ k ∈ rpKeys rp := by
  simp only [rpHasKey, rpKeys, List.any_eq_true, List.mem_map,
    decide_eq_true_eq]

theorem mem_rpInsert {rp : RequiredPredicates} {k : Pred} {s : DefStack}
    {e : Pred × DefStack} (h : e ∈ rpInsert rp k s) : e ∈ rp ∨ e = (k, s) := by
  unfold rpInsert at h
  by_cases hk : rpHasKey rp k = true
  · simp [hk] at h; exact Or.inl h
  · simp [hk] at h
    rcases h with h | h
    · exact Or.inl h
    · exact Or.inr h

theorem mem_rpInsert_of_mem {rp : RequiredPredicates} {k : Pred} {s : DefStack}
    {e : Pred × DefStack} (h : e ∈ rp) : e ∈ rpInsert rp k s := by
  unfold rpInsert
  by_cases hk : rpHasKey rp k = true
  · simpa [hk]
  · simp [hk]; exact Or.inl h

theorem length_le_rpInsert (rp : RequiredPredicates) (k : Pred) (s : DefStack) :
    rp.length ≤ (rpInsert rp k s).length := by
  unfold rpInsert
  by_cases hk : rpHasKey rp k = true <;> simp [hk]

theorem keysNodup_rpInsert {rp : RequiredPredicates} (k : Pred) (s : DefStack)
    (h : keysNodup rp) : keysNodup (rpInsert rp k s) := by
  unfold rpInsert
  by_cases hk : rpHasKey rp k = true
  · simpa [hk]
  · have hnk : k ∉ rpKeys rp := fun hmem => hk ((rpHasKey_iff rp k).mpr hmem)
    simp only [hk, ite_false, Bool.false_eq_true]
    unfold keysNodup rpKeys at h ⊢
    rw [List.map_append, List.nodup_append]
    refine ⟨h, List.nodup_singleton _, ?_⟩
    intro a ha hb
    simp only [List.map_cons, List.map_nil, List.mem_singleton] at hb
    subst hb
    exact hnk ha

theorem rpFindNone {rp : RequiredPredicates} {k : Pred}
    (h : ¬ rpHasKey rp k = true) : rp.find? (fun e => e.1 = k) = none := by
  rw [List.find?_eq_none]
  intro e he
  simp only [decide_eq_true_eq]
  intro hek
  apply h
  rw [rpHasKey_iff]
  exact List.mem_map.mpr ⟨e, he, hek⟩

theorem rpLookup_rpInsert_new {rp : RequiredPredicates} {k : Pred} (s : DefStack)
    (h : ¬ rpHasKey rp k = true) : rpLookup (rpInsert rp k s) k = some s := by
  unfold rpInsert
  simp only [h, ite_false, Bool.false_eq_true]
  unfold rpLookup
  rw [find?_append_none _ _ (rpFindNone h)]
  simp

/-! ### Basic lemmas on the global store -/

theorem find?_append_some {α : Type} (p : α → Bool) :
    ∀ {l₁ : List α} (l₂ : List α) {x : α}, l₁.find? p = some x →
      (l₁ ++ l₂).find? p = some x := by
  intro l₁
  induction l₁ with
  | nil => intro l₂ x h; cases h
  | cons a t ih =>
    intro l₂ x h
    by_cases hpa : p a = true
    · rw [List.find?_cons_of_pos _ hpa] at h
      rw [List.cons_append, List.find?_cons_of_pos _ hpa]
      exact h
    · rw [List.find?_cons_of_neg _ (by simpa using hpa)] at h
      rw [List.cons_append, List.find?_cons_of_neg _ (by simpa using hpa)]
      exact ih l₂ h

theorem globalLookup_mem {g : Global} {did : DefId} {rp : RequiredPredicates}
    (h : globalLookup g did = some rp) : (did, rp) ∈ g := by
  unfold globalLookup at h
  cases hf : g.find? (fun e => e.1 = did) with
  | none => rw [hf] at h; cases h
  | some e =>
    rw [hf] at h
    have he : e ∈ g := List.mem_of_find?_eq_some hf
    have hp : e.1 = did := by simpa using List.find?_some hf
    cases h
    have : e = (did, e.2) := by
      cases e; simp at hp ⊢; exact hp
    rw [← this]
    exact he

theorem globalLookup_insert_self (g : Global) (did : DefId) (rp : RequiredPredicates) :
    globalLookup (globalInsert g did rp) did = some rp := by
  unfold globalInsert
  by_cases hmem : g.any (fun e => e.1 = did) = true
  · simp only [hmem, ite_true]
    unfold globalLookup
    induction g with
    | nil => cases hmem
    | cons a t ih =>
      by_cases ha : a.1 = did
      · simp only [List.map_cons, ha, ite_true]
        rw [List.find?_cons_of_pos _ (by simp)]
      · simp only [List.map_cons, ha, ite_false]
        rw [List.find?_cons_of_neg _ (by simpa using ha)]
        apply ih
        simp only [List.any_cons, ha, decide_eq_true_eq] at hmem ⊢
        simpa [ha] using hmem
  · simp only [hmem, ite_false, Bool.false_eq_true]
    unfold globalLookup
    have hnone : g.find? (fun e => e.1 = did) = none := by
      rw [List.find?_eq_none]
      intro e he
      simp only [decide_eq_true_eq]
      intro hek
      exact hmem (List.any_eq_true.mpr ⟨e, he, by simpa using hek⟩)
    rw [find?_append_none _ _ hnone]
    rw [List.find?_cons_of_pos _ (by simp)]

theorem find?_replace_other {did d' : DefId} (rp : RequiredPredicates)
    (h : d' ≠ did) :
    ∀ g : Global,
      (g.map (fun e => if e.1 = did then (did, rp) else e)).find?
          (fun e => e.1 = d') =
        g.find? (fun e => e.1 = d') := by
  intro g
  induction g with
  | nil => simp
  | cons a t ih =>
    by_cases ha : a.1 = did
    · simp only [List.map_cons, ha, ite_true]
      rw [List.find?_cons_of_neg _ (by simp [Ne.symm h]),
        List.find?_cons_of_neg _ (by simp [ha, Ne.symm h])]
      exact ih
    · simp only [List.map_cons, ha, ite_false]
      by_cases had : a.1 = d'
      · rw [List.find?_cons_of_pos _ (by simpa using had),
          List.find?_cons_of_pos _ (by simpa using had)]
      · rw [List.find?_cons_of_neg _ (by simpa using had),
          List.find?_cons_of_neg _ (by simpa using had)]
        exact ih

theorem globalLookup_insert_other (g : Global) {did d' : DefId}
    (rp : RequiredPredicates) (h : d' ≠ did) :
    globalLookup (globalInsert g did rp) d' = globalLookup g d' := by
  unfold globalInsert globalLookup
  by_cases hmem : g.any (fun e => e.1 = did) = true
  · simp only [hmem, ite_true]
    rw [find?_replace_other rp h g]
  · simp only [hmem, ite_false, Bool.false_eq_true]
    cases hf : g.find? (fun e => e.1 = d') with
    | some x => rw [find?_append_some _ _ hf]
    | none =>
      rw [find?_append_none _ _ hf]
      rw [List.find?_cons_of_neg _ (by simpa using Ne.symm h)]
      simp

theorem gSize_insert_self (g : Global) (did : DefId) (rp : RequiredPredicates) :
    gSize (globalInsert g did rp) did = rp.length := by
  unfold gSize
  rw [globalLookup_insert_self]
  rfl

theorem gSize_insert_other (g : Global) {did d' : DefId}
    (rp : RequiredPredicates) (h : d' ≠ did) :
    gSize (globalInsert g did rp) d' = gSize g d' := by
  unfold gSize
  rw [globalLookup_insert_other g rp h]

/-! ### Shape of the explicit predicate sets -/

theorem explicit_entry_shape (p : Program) (did : DefId) :
    ∀ e ∈ explicit_predicates_of p did,
      ∃ b ∈ explicitList p did, e = (b.1, [(did, b.2)]) := by
  unfold explicit_predicates_of
  apply foldl_inv
    (P := fun rp => ∀ e ∈ rp, ∃ b ∈ explicitList p did, e = (b.1, [(did, b.2)]))
  · intro e he
    cases he
  · intro rp b hb hP e he
    rcases mem_rpInsert he with h | h
    · exact hP e h
    · exact ⟨b, hb, h⟩

/-! ### Preservation of the stored-entry invariant -/

theorem RPOk_insert {p : Program} {d : DefId} {rp : RequiredPredicates}
    {k : Pred} {s : DefStack} (hrp : RPOk p d rp) (he : EntryOK p d (k, s)) :
    RPOk p d (rpInsert rp k s) := by
  refine ⟨keysNodup_rpInsert k s hrp.1, ?_⟩
  intro e hmem
  rcases mem_rpInsert hmem with h | h
  · exact hrp.2 e h
  · rw [h]; exact he

theorem Ulevel_mono_step {p : Program} {U U' : DefId → List Pred}
    (h : ∀ d x, x ∈ U d → x ∈ U' d) :
    ∀ d x, x ∈ stepU p U d → x ∈ stepU p U' d := by
  intro d x hx
  unfold stepU at hx ⊢
  rcases List.mem_append.mp hx with hb | hs
  · exact List.mem_append.mpr (Or.inl hb)
  · refine List.mem_append.mpr (Or.inr ?_)
    rcases List.mem_flatMap.mp hs with ⟨node, hnode, hx'⟩
    refine List.mem_flatMap.mpr ⟨node, hnode, ?_⟩
    cases node with
    | adt d' substs =>
      simp only [stepPredsOfNode, List.mem_map] at hx' ⊢
      rcases hx' with ⟨y, hy, rfl⟩
      exact ⟨y, h d' y hy, rfl⟩
    | lifetime r => exact hx'
    | konst n => exact hx'
    | ref r t => exact hx'
    | dynamic q => exact hx'
    | proj tr args => exact hx'
    | tparam i sf => exact hx'
    | usize => exact hx'
    | prim => exact hx'

theorem Ulevel_succ_mono (p : Program) :
    ∀ (n : Nat) (d : DefId) (x : Pred), x ∈ Ulevel p n d → x ∈ Ulevel p (n + 1) d
  | 0, _, _, hx => by cases hx
  | n + 1, d, x, hx =>
    Ulevel_mono_step (fun d' y hy => Ulevel_succ_mono p n d' y hy) d x hx

theorem Ulevel_mono {p : Program} :
    ∀ {m n : Nat}, m ≤ n → ∀ d x, x ∈ Ulevel p m d → x ∈ Ulevel p n d := by
  intro m n hmn
  induction hmn with
  | refl => intro d x hx; exact hx
  | step _ ih => intro d x hx; exact Ulevel_succ_mono p _ d x (ih d x hx)

theorem check_explicit_ok {p : Program} {d def_id : DefId} {substs : List GenArg}
    {ist : Option GenArg} {rp : RequiredPredicates}
    (hd : d ∈ adtDids p)
    (hbase : ∀ b ∈ explicitList p def_id, substPred substs b.1 ∈ baseOf p d)
    (hrp : RPOk p d rp) :
    RPOk p d (check_explicit_predicates p d def_id substs ist rp) := by
  unfold check_explicit_predicates
  apply foldl_inv (P := RPOk p d) _ _ _ hrp
  intro rp' e he hrp'
  unfold ceStep
  split
  · exact hrp'
  · split
    · exact hrp'
    · rename_i q _
      obtain ⟨b, hb, rfl⟩ := explicit_entry_shape p def_id e he
      unfold insert_outlives_predicate
      apply RPOk_insert hrp'
      refine ⟨?_, ?_, ?_⟩
      · simp [stackDids]
      · intro x hx
        simp only [stackDids, Option.getD_none, List.nil_append, List.map_cons,
          List.map_nil, List.mem_singleton] at hx
        rw [hx]
        exact hd
      · show substPred substs b.1 ∈ Ulevel p _ d
        simp only [Option.getD_none, List.nil_append, List.length_cons,
          List.length_nil]
        show substPred substs b.1 ∈ stepU p (Ulevel p 0) d
        unfold stepU
        exact List.mem_append.mpr (Or.inl (hbase b hb))

theorem processArg_ok {p : Program} {d : DefId} {span : Span} {g : Global}
    {rp : RequiredPredicates} {node : GenArg}
    (hg : GOk p g) (hd : d ∈ adtDids p) (hnode : node ∈ fieldNodes p d)
    (hrp : RPOk p d rp) : RPOk p d (processArg p d span g rp node) := by
  cases node with
  | lifetime r => exact hrp
  | konst n => exact hrp
  | tparam i sf => exact hrp
  | usize => exact hrp
  | prim => exact hrp
  | ref r rty =>
    unfold processArg insert_outlives_predicate
    apply RPOk_insert hrp
    refine ⟨?_, ?_, ?_⟩
    · simp [stackDids]
    · intro x hx
      simp only [stackDids, Option.getD_none, List.nil_append, List.map_cons,
        List.map_nil, List.mem_singleton] at hx
      rw [hx]
      exact hd
    · show (rty, r) ∈ Ulevel p _ d
      simp only [Option.getD_none, List.nil_append, List.length_cons,
        List.length_nil]
      show (rty, r) ∈ stepU p (Ulevel p 0) d
      unfold stepU
      refine List.mem_append.mpr (Or.inl ?_)
      unfold baseOf
      refine List.mem_flatMap.mpr ⟨GenArg.ref r rty, hnode, ?_⟩
      simp [basePredsOfNode]
  | dynamic q =>
    cases q with
    | none => exact hrp
    | some pr =>
      obtain ⟨tr, args⟩ := pr
      unfold processArg
      apply check_explicit_ok hd _ hrp
      intro b hb
      unfold baseOf
      refine List.mem_flatMap.mpr ⟨GenArg.dynamic (some (tr, args)), hnode, ?_⟩
      simp only [basePredsOfNode, List.mem_map]
      exact ⟨b, hb, rfl⟩
  | proj tr args =>
    unfold processArg
    apply check_explicit_ok hd _ hrp
    intro b hb
    unfold baseOf
    refine List.mem_flatMap.mpr ⟨GenArg.proj tr args, hnode, ?_⟩
    simp only [basePredsOfNode, List.mem_map]
    exact ⟨b, hb, rfl⟩
  | adt adt substs =>
    unfold processArg
    apply check_explicit_ok hd
    · intro b hb
      unfold baseOf
      refine List.mem_flatMap.mpr ⟨GenArg.adt adt substs, hnode, ?_⟩
      simp only [basePredsOfNode, List.mem_map]
      exact ⟨b, hb, rfl⟩
    · cases hlook : globalLookup g adt with
      | none => exact hrp
      | some entries =>
        have hmem : (adt, entries) ∈ g := globalLookup_mem hlook
        have hentries : RPOk p adt entries := (hg.2 _ hmem).2
        apply foldl_inv (P := RPOk p d) _ _ _ hrp
        intro rp' e he hrp'
        dsimp only
        split
        · exact hrp'
        · rename_i hguard
          have heok : EntryOK p adt e := hentries.2 e he
          unfold insert_outlives_predicate
          apply RPOk_insert hrp'
          have hdnot : d ∉ stackDids e.2 := by
            intro hmem'
            apply hguard
            refine List.any_eq_true.mpr ⟨d, hmem', by simp⟩
          refine ⟨?_, ?_, ?_⟩
          · show (stackDids ((some e.2).getD [] ++ [(d, span)])).Nodup
            simp only [Option.getD_some, stackDids, List.map_append,
              List.map_cons, List.map_nil]
            rw [List.nodup_append]
            refine ⟨heok.1, List.nodup_singleton _, ?_⟩
            intro x hx hx'
            simp only [List.mem_singleton] at hx'
            subst hx'
            exact hdnot hx
          · intro x hx
            simp only [Option.getD_some, stackDids, List.map_append,
              List.map_cons, List.map_nil, List.mem_append,
              List.mem_singleton] at hx
            rcases hx with hx | hx
            · exact heok.2.1 x hx
            · rw [hx]; exact hd
          · show substPred substs e.1 ∈ Ulevel p ((some e.2).getD [] ++ [(d, span)]).length d
            simp only [Option.getD_some, List.length_append, List.length_cons,
              List.length_nil]
            show substPred substs e.1 ∈ stepU p (Ulevel p e.2.length) d
            unfold stepU
            refine List.mem_append.mpr (Or.inr ?_)
            refine List.mem_flatMap.mpr ⟨GenArg.adt adt substs, hnode, ?_⟩
            simp only [stepPredsOfNode, List.mem_map]
            exact ⟨e.1, heok.2.2, rfl⟩

theorem walker_ok {p : Program} {d : DefId} {ty : GenArg} {span : Span}
    {g : Global} {rp : RequiredPredicates}
    (hg : GOk p g) (hd : d ∈ adtDids p)
    (hty : ∀ node ∈ walkArg ty, node ∈ fieldNodes p d) (hrp : RPOk p d rp) :
    RPOk p d (insert_required_predicates_to_be_wf p d ty span g rp) := by
  unfold insert_required_predicates_to_be_wf
  apply foldl_inv (P := RPOk p d) _ _ _ hrp
  intro rp' node hnode hrp'
  exact processArg_ok hg hd (hty node hnode) hrp'

theorem RPOk_nil (p : Program) (d : DefId) : RPOk p d [] := by
  refine ⟨by simp [keysNodup, rpKeys], ?_⟩
  intro e he
  cases he

theorem mem_fieldsOf {p : Program} {a : AdtDefn} {f : FieldDef}
    (ha : a ∈ p.adts) (hf : f ∈ a.fields) : f ∈ fieldsOf p a.did := by
  unfold fieldsOf
  refine List.mem_flatMap.mpr ⟨a, ?_, hf⟩
  rw [List.mem_filter]
  exact ⟨ha, by simp⟩

theorem mem_adtDids {p : Program} {a : AdtDefn} (ha : a ∈ p.adts) :
    a.did ∈ adtDids p := by
  unfold adtDids
  exact List.mem_map.mpr ⟨a, ha, rfl⟩

theorem computeItem_ok {p : Program} {g : Global} {a : AdtDefn}
    (hg : GOk p g) (ha : a ∈ p.adts) : RPOk p a.did (computeItem p g a) := by
  unfold computeItem
  apply foldl_inv (P := RPOk p a.did) _ _ _ (RPOk_nil p a.did)
  intro rp f hf hrp
  apply walker_ok hg (mem_adtDids ha) _ hrp
  intro node hnode
  unfold fieldNodes
  exact List.mem_flatMap.mpr ⟨f, mem_fieldsOf ha hf, hnode⟩

theorem GOk_globalInsert {p : Program} {g : Global} {did : DefId}
    {rp : RequiredPredicates} (hG : GOk p g) (hd : did ∈ adtDids p)
    (hrp : RPOk p did rp) : GOk p (globalInsert g did rp) := by
  unfold globalInsert
  by_cases hmem : g.any (fun e => e.1 = did) = true
  · simp only [hmem, ite_true]
    constructor
    · have hkeys :
          (g.map (fun e => if e.1 = did then (did, rp) else e)).map Prod.fst =
            g.map Prod.fst := by
        rw [List.map_map]
        apply List.map_congr_left
        intro e _
        by_cases he : e.1 = did
        · simp [he]
        · simp [he]
      rw [hkeys]
      exact hG.1
    · intro x hx
      rcases List.mem_map.mp hx with ⟨e, he, rfl⟩
      by_cases hed : e.1 = did
      · simp only [hed, ite_true]
        exact ⟨hd, hrp⟩
      · simp only [hed, ite_false]
        exact hG.2 e he
  · simp only [hmem, ite_false, Bool.false_eq_true]
    constructor
    · rw [List.map_append, List.nodup_append]
      refine ⟨hG.1, by simp, ?_⟩
      intro x hx hx'
      simp only [List.map_cons, List.map_nil, List.mem_singleton] at hx'
      subst hx'
      rcases List.mem_map.mp hx with ⟨e, he, hfst⟩
      exact hmem (List.any_eq_true.mpr ⟨e, he, by simpa using hfst⟩)
    · intro x hx
      rcases List.mem_append.mp hx with h | h
      · exact hG.2 x h
      · simp only [List.mem_singleton] at h
        subst h
        exact ⟨hd, hrp⟩

theorem GOk_roundStep {p : Program} {acc : Global × Bool} {a : AdtDefn}
    (hG : GOk p acc.1) (ha : a ∈ p.adts) : GOk p (roundStep p acc a).1 := by
  unfold roundStep
  dsimp only
  split
  · exact GOk_globalInsert hG (mem_adtDids ha) (computeItem_ok hG ha)
  · exact hG

theorem GOk_inferRound {p : Program} {g : Global} (hG : GOk p g) :
    GOk p (inferRound p g).1 := by
  unfold inferRound
  exact foldl_inv (P := fun acc => GOk p acc.1) (roundStep p) p.adts (g, false) hG
    (fun acc a ha hacc => GOk_roundStep hacc ha)

theorem GOk_nil (p : Program) : GOk p [] := by
  refine ⟨by simp, ?_⟩
  intro x hx
  cases hx

theorem GOk_roundIter (p : Program) : ∀ n, GOk p (roundIter p n)
  | 0 => GOk_nil p
  | n + 1 => GOk_inferRound (GOk_roundIter p n)

theorem nodup_length_le_dedup {α : Type} [DecidableEq α] {l L : List α}
    (hn : l.Nodup) (hsub : ∀ x ∈ l, x ∈ L) : l.length ≤ L.dedup.length := by
  have h1 : l.toFinset.card = l.length := List.toFinset_card_of_nodup hn
  have h2 : l.toFinset ⊆ L.toFinset := by
    intro x hx
    rw [List.mem_toFinset] at hx ⊢
    exact hsub x hx
  have h3 := Finset.card_le_card h2
  rw [h1, List.card_toFinset] at h3
  exact h3

/-! ### Growth and termination of the round loop -/

theorem gSize_le_capD {p : Program} {g : Global} (hG : GOk p g) (d : DefId) :
    gSize g d ≤ capD p d := by
  unfold gSize
  cases hlook : globalLookup g d with
  | none => simp
  | some rp =>
    simp only [Option.map_some', Option.getD_some]
    have hrp : RPOk p d rp := (hG.2 _ (globalLookup_mem hlook)).2
    have hlen : rp.length = (rpKeys rp).length := by simp [rpKeys]
    rw [hlen]
    unfold capD
    apply nodup_length_le_dedup hrp.1
    intro k hk
    rcases List.mem_map.mp hk with ⟨e, he, rfl⟩
    have heok := hrp.2 e he
    apply Ulevel_mono _ d e.1 heok.2.2
    have hlen' : (stackDids e.2).length ≤ didCard p :=
      nodup_length_le_dedup heok.1 heok.2.1
    simpa [stackDids] using hlen'

theorem phi_add_one_le_inferFuel {p : Program} {g : Global} (hG : GOk p g) :
    phi p g + 1 ≤ inferFuel p := by
  unfold phi inferFuel
  have h : ((adtDids p).dedup.map (gSize g)).sum ≤
      ((adtDids p).dedup.map (capD p)).sum :=
    List.sum_le_sum (fun d _ => gSize_le_capD hG d)
  omega

/-- The combined per-round invariant: the store only grows in size
pointwise; when the flag is still `false` the store is untouched; when the
flag is `true` the measure has strictly increased. -/
theorem inferRound_spec (p : Program) (g : Global) (hG : GOk p g) :
    (∀ d, gSize g d ≤ gSize (inferRound p g).1 d) ∧
      ((inferRound p g).2 = false → (inferRound p g).1 = g) ∧
      ((inferRound p g).2 = true → phi p g < phi p (inferRound p g).1) ∧
      (∀ d, (globalLookup g d).isSome = true →
        (globalLookup (inferRound p g).1 d).isSome = true) := by
  unfold inferRound
  have h := foldl_inv
    (P := fun acc : Global × Bool =>
      GOk p acc.1 ∧ (∀ d, gSize g d ≤ gSize acc.1 d) ∧
        (acc.2 = false → acc.1 = g) ∧
        (acc.2 = true → phi p g < phi p acc.1) ∧
        (∀ d, (globalLookup g d).isSome = true →
          (globalLookup acc.1 d).isSome = true))
    (roundStep p) p.adts (g, false)
    ⟨hG, fun _ => le_refl _, fun _ => rfl, by simp, fun _ h => h⟩
    ?_
  · exact ⟨h.2.1, h.2.2.1, h.2.2.2.1, h.2.2.2.2⟩
  · rintro ⟨gc, flag⟩ a ha ⟨hGc, hsize, hfalse, htrue, hsome⟩
    unfold roundStep
    dsimp only
    split
    · rename_i hgt
      refine ⟨GOk_globalInsert hGc (mem_adtDids ha) (computeItem_ok hGc ha),
        ?_, ?_, ?_, ?_⟩
      · intro d
        by_cases hda : d = a.did
        · subst hda
          rw [gSize_insert_self]
          exact le_trans (hsize a.did) (Nat.le_of_lt hgt)
        · rw [gSize_insert_other _ _ hda]
          exact hsize d
      · intro hcontra
        cases hcontra
      · intro _
        have hle : ∀ d ∈ (adtDids p).dedup,
            gSize g d ≤ gSize (globalInsert gc a.did (computeItem p gc a)) d := by
          intro d _
          by_cases hda : d = a.did
          · subst hda
            rw [gSize_insert_self]
            exact le_trans (hsize a.did) (Nat.le_of_lt hgt)
          · rw [gSize_insert_other _ _ hda]
            exact hsize d
        have hstrict : ∃ d ∈ (adtDids p).dedup,
            gSize g d < gSize (globalInsert gc a.did (computeItem p gc a)) d := by
          refine ⟨a.did, List.mem_dedup.mpr (mem_adtDids ha), ?_⟩
          rw [gSize_insert_self]
          exact lt_of_le_of_lt (hsize a.did) hgt
        exact List.sum_lt_sum _ _ hle hstrict
      · intro d hd
        by_cases hda : d = a.did
        · subst hda
          rw [globalLookup_insert_self]
          rfl
        · rw [globalLookup_insert_other _ _ hda]
          exact hsome d hd
    · exact ⟨hGc, hsize, hfalse, htrue, hsome⟩

theorem inferLoop_isSome (p : Program) :
    ∀ (fuel : Nat) (g : Global), GOk p g → inferFuel p ≤ fuel + phi p g →
      (inferLoop p fuel g).isSome = true
  | 0, g, hG, hle => by
    exfalso
    have := phi_add_one_le_inferFuel hG
    omega
  | fuel + 1, g, hG, hle => by
    unfold inferLoop
    dsimp only
    by_cases hr : (inferRound p g).2 = true
    · rw [if_pos hr]
      have hspec := inferRound_spec p g hG
      have hlt := hspec.2.2.1 hr
      exact inferLoop_isSome p fuel (inferRound p g).1 (GOk_inferRound hG)
        (by omega)
    · rw [if_neg hr]
      rfl

theorem inferRound_of_false {p : Program} {g : Global}
    (h : (inferRound p g).2 = false) : inferRound p g = (g, false) := by
  unfold inferRound at h ⊢
  have hinv := foldl_inv
    (P := fun acc : Global × Bool => acc.2 = false → acc = (g, false))
    (roundStep p) p.adts (g, false) (fun _ => rfl) ?_
  · exact hinv h
  · rintro ⟨gc, flag⟩ a _ hacc
    unfold roundStep
    dsimp only
    split
    · intro hcontra
      cases hcontra
    · exact hacc

theorem inferLoop_fixed (p : Program) :
    ∀ (fuel : Nat) (g gf : Global), inferLoop p fuel g = some gf →
      inferRound p gf = (gf, false)
  | 0, _, _, h => by cases h
  | fuel + 1, g, gf, h => by
    unfold inferLoop at h
    dsimp only at h
    by_cases hr : (inferRound p g).2 = true
    · rw [if_pos hr] at h
      exact inferLoop_fixed p fuel _ gf h
    · rw [if_neg hr] at h
      have hfalse : (inferRound p g).2 = false := by
        revert hr
        cases (inferRound p g).2 <;> simp
      have hfix := inferRound_of_false hfalse
      have hgf : gf = g := by
        have h1 : (inferRound p g).1 = gf := by
          injection h
        rw [hfix] at h1
        exact h1.symm
      rw [hgf]
      exact hfix

/-! ### Key-membership monotonicity through the walker -/

theorem rpHasKey_rpInsert_self (rp : RequiredPredicates) (k : Pred) (s : DefStack) :
    rpHasKey (rpInsert rp k s) k = true := by
  unfold rpInsert
  by_cases hk : rpHasKey rp k = true
  · simp [hk]
  · simp only [hk, ite_false, Bool.false_eq_true]
    unfold rpHasKey
    rw [List.any_append]
    simp

theorem rpHasKey_rpInsert_mono {rp : RequiredPredicates} {k : Pred}
    (k' : Pred) (s : DefStack) (h : rpHasKey rp k = true) :
    rpHasKey (rpInsert rp k' s) k = true := by
  unfold rpInsert
  by_cases hk : rpHasKey rp k' = true
  · simpa [hk]
  · simp only [hk, ite_false, Bool.false_eq_true]
    unfold rpHasKey at h ⊢
    rw [List.any_append, h]
    rfl

theorem check_explicit_hasKey_mono {p : Program} {self_did def_id : DefId}
    {substs : List GenArg} {ist : Option GenArg} {rp : RequiredPredicates}
    {k : Pred} (h : rpHasKey rp k = true) :
    rpHasKey (check_explicit_predicates p self_did def_id substs ist rp) k = true := by
  unfold check_explicit_predicates
  apply foldl_inv (P := fun rp => rpHasKey rp k = true) _ _ _ h
  intro rp' e _ h'
  unfold ceStep
  split
  · exact h'
  · split
    · exact h'
    · exact rpHasKey_rpInsert_mono _ _ h'

theorem processArg_hasKey_mono {p : Program} {d : DefId} {span : Span}
    {g : Global} {rp : RequiredPredicates} {k : Pred} (node : GenArg)
    (h : rpHasKey rp k = true) :
    rpHasKey (processArg p d span g rp node) k = true := by
  cases node with
  | lifetime r => exact h
  | konst n => exact h
  | tparam i sf => exact h
  | usize => exact h
  | prim => exact h
  | ref r rty => exact rpHasKey_rpInsert_mono _ _ h
  | proj tr args =>
    unfold processArg
    exact check_explicit_hasKey_mono h
  | dynamic q =>
    cases q with
    | none => exact h
    | some pr =>
      obtain ⟨tr, args⟩ := pr
      unfold processArg
      exact check_explicit_hasKey_mono h
  | adt adt substs =>
    unfold processArg
    apply check_explicit_hasKey_mono
    cases hlook : globalLookup g adt with
    | none => exact h
    | some entries =>
      apply foldl_inv (P := fun rp => rpHasKey rp k = true) _ _ _ h
      intro rp' e _ h'
      dsimp only
      split
      · exact h'
      · exact rpHasKey_rpInsert_mono _ _ h'

theorem walker_hasKey_mono {p : Program} {d : DefId} {ty : GenArg} {span : Span}
    {g : Global} {rp : RequiredPredicates} {k : Pred}
    (h : rpHasKey rp k = true) :
    rpHasKey (insert_required_predicates_to_be_wf p d ty span g rp) k = true := by
  unfold insert_required_predicates_to_be_wf
  apply foldl_inv (P := fun rp => rpHasKey rp k = true) _ _ _ h
  intro rp' node _ h'
  exact processArg_hasKey_mono node h'

/-! ### Inert arguments -/

theorem walkArg_inert {a : GenArg} (h : inertArg a = true) : walkArg a = [a] := by
  cases a <;> first | rfl | cases h

theorem processArg_inert {p : Program} {d : DefId} {span : Span} {g : Global}
    {rp : RequiredPredicates} {a : GenArg} (h : inertArg a = true) :
    processArg p d span g rp a = rp := by
  cases a <;> first | rfl | cases h

theorem walkArgs_inert : ∀ {l : List GenArg}, (∀ x ∈ l, inertArg x = true) →
    walkArgs l = l
  | [], _ => rfl
  | a :: rest, h => by
    show walkArg a ++ walkArgs rest = a :: rest
    rw [walkArg_inert (h a (List.mem_cons_self a rest)),
      walkArgs_inert (fun x hx => h x (List.mem_cons_of_mem a hx))]
    rfl

theorem foldl_processArg_inert {p : Program} {d : DefId} {span : Span}
    {g : Global} :
    ∀ {l : List GenArg}, (∀ x ∈ l, inertArg x = true) →
      ∀ rp : RequiredPredicates, l.foldl (processArg p d span g) rp = rp
  | [], _, _ => rfl
  | a :: rest, h, rp => by
    rw [List.foldl_cons, processArg_inert (h a (List.mem_cons_self a rest))]
    exact foldl_processArg_inert (fun x hx => h x (List.mem_cons_of_mem a hx)) rp

/-! ### The `Self` placeholder under substitution -/

mutual
theorem mentionsSelf_substArg (s : List GenArg)
    (hs : ∀ x ∈ s, mentionsSelf x = false) :
    ∀ a : GenArg, mentionsSelf a = false → mentionsSelf (substArg s a) = false
  | GenArg.lifetime r, _ => by
    simp [substArg, mentionsSelf, walkArg, selfTy]
  | GenArg.konst n, _ => by
    simp [substArg, mentionsSelf, walkArg, selfTy]
  | GenArg.ref r t, h => by
    have ht : mentionsSelf t = false := by
      revert h
      simp [mentionsSelf, walkArg, selfTy]
    have h2 := mentionsSelf_substArg s hs t ht
    revert h2
    simp [substArg, mentionsSelf, walkArg, selfTy]
  | GenArg.adt d args, h => by
    have hl : (walkArgs args).any (fun x => x = selfTy) = false := by
      revert h
      simp [mentionsSelf, walkArg, selfTy]
    have h2 := mentionsSelf_substArgs s hs args hl
    revert h2
    simp [substArg, mentionsSelf, walkArg, selfTy]
  | GenArg.dynamic none, _ => by
    simp [substArg, mentionsSelf, walkArg, selfTy]
  | GenArg.dynamic (some (d, args)), h => by
    have hl : (walkArgs args).any (fun x => x = selfTy) = false := by
      revert h
      simp [mentionsSelf, walkArg, selfTy]
    have h2 := mentionsSelf_substArgs s hs args hl
    revert h2
    simp [substArg, mentionsSelf, walkArg, selfTy]
  | GenArg.proj tr args, h => by
    have hl : (walkArgs args).any (fun x => x = selfTy) = false := by
      revert h
      simp [mentionsSelf, walkArg, selfTy]
    have h2 := mentionsSelf_substArgs s hs args hl
    revert h2
    simp [substArg, mentionsSelf, walkArg, selfTy]
  | GenArg.tparam i sf, h => by
    show mentionsSelf ((s.get? i).getD (GenArg.tparam i sf)) = false
    cases hget : s.get? i with
    | none => simpa using h
    | some x =>
      simp only [Option.getD_some]
      exact hs x (List.get?_mem hget)
  | GenArg.usize, _ => by
    simp [substArg, mentionsSelf, walkArg, selfTy]
  | GenArg.prim, _ => by
    simp [substArg, mentionsSelf, walkArg, selfTy]

theorem mentionsSelf_substArgs (s : List GenArg)
    (hs : ∀ x ∈ s, mentionsSelf x = false) :
    ∀ l : List GenArg, (walkArgs l).any (fun x => x = selfTy) = false →
      (walkArgs (substArgs s l)).any (fun x => x = selfTy) = false
  | [], _ => by simp [substArgs, walkArgs]
  | a :: rest, h => by
    have hsplit : mentionsSelf a = false ∧
        (walkArgs rest).any (fun x => x = selfTy) = false := by
      revert h
      simp [mentionsSelf, walkArgs, List.any_append]
    have h1 := mentionsSelf_substArg s hs a hsplit.1
    have h2 := mentionsSelf_substArgs s hs rest hsplit.2
    show ((walkArg (substArg s a) ++ walkArgs (substArgs s rest)).any
      (fun x => x = selfTy)) = false
    rw [List.any_append]
    unfold mentionsSelf at h1
    rw [h1, h2]
    rfl
end

/-- Subjects that survive the `Self` filter produce `Self`-free predicates
after substitution with a `Self`-free substitution list. -/
theorem subject_selfFree_after_subst {s : List GenArg}
    (hs : ∀ x ∈ s, mentionsSelf x = false) {b : GenArg}
    (hb : isLifetimeOrConst b = true ∨ mentionsSelf b = false) :
    mentionsSelf (substArg s b) = false := by
  rcases hb with hb | hb
  · cases b with
    | lifetime r => simp [substArg, mentionsSelf, walkArg, selfTy]
    | konst n => simp [substArg, mentionsSelf, walkArg, selfTy]
    | ref r t => cases hb
    | adt d args => cases hb
    | dynamic q => cases hb
    | proj tr args => cases hb
    | tparam i sf => cases hb
    | usize => cases hb
    | prim => cases hb
  · exact mentionsSelf_substArg s hs b hb

/-! ### Agreement of the explicit `unwrap` model with the total rendering -/

theorem ceStepOpt_some {self_did : DefId} {substs : List GenArg}
    {ist : Option GenArg} {rp : RequiredPredicates} {e : Pred × DefStack}
    (he : e.2.length = 1) :
    ceStepOpt self_did substs ist (some rp) e =
      some (ceStep self_did substs ist rp e) := by
  obtain ⟨q, hq⟩ : ∃ q, e.2 = [q] := by
    cases hstack : e.2 with
    | nil => rw [hstack] at he; cases he
    | cons q tl =>
      rw [hstack] at he
      simp only [List.length_cons] at he
      have htl : tl = [] := List.eq_nil_of_length_eq_zero (by omega)
      exact ⟨q, by rw [htl]⟩
  unfold ceStepOpt ceStep
  dsimp only
  split
  · rfl
  · rw [hq]
    rfl

theorem check_explicit_opt_eq {p : Program} {self_did def_id : DefId}
    {substs : List GenArg} {ist : Option GenArg} {rp : RequiredPredicates}
    (h : ∀ e ∈ explicit_predicates_of p def_id, e.2.length = 1) :
    check_explicit_predicates_opt p self_did def_id substs ist rp =
      some (check_explicit_predicates p self_did def_id substs ist rp) := by
  unfold check_explicit_predicates_opt check_explicit_predicates
  generalize hl : explicit_predicates_of p def_id = l
  rw [hl] at h
  clear hl
  induction l generalizing rp with
  | nil => rfl
  | cons e t ih =>
    rw [List.foldl_cons, List.foldl_cons,
      ceStepOpt_some (h e (List.mem_cons_self e t))]
    exact ih (fun e' he' => h e' (List.mem_cons_of_mem e he'))

/-! ### The claims -/

/-- C1, amended: the Global Store returned by `infer_predicates` is a fixed
point in the driver's sense — one more round makes no replacement and
returns the store unchanged.  (The claim's stronger reading, that every
per-definition recomputation reproduces the stored set identically, fails:
see `fixed_point_not_identical_cex`.) -/
theorem infer_predicates_fixed_point {p : Program} {g : Global}
    (h : infer_predicates p = some g) : inferRound p g = (g, false) :=
  inferLoop_fixed p (inferFuel p) [] g h

/-- Witness for C1: the store computed for the `Foo`/`Bar` program is
unchanged by one more round. -/
theorem infer_predicates_fixed_point_witness :
    inferRound fooBarProg fooBarFinal = (fooBarFinal, false) :=
  infer_predicates_fixed_point (p := fooBarProg) (by decide)

/-- C1, counterexample: on `cvProg` the driver stops (no further growth),
yet re-running the per-definition recomputation for `V` from the returned
store does not produce `V`'s stored predicate set: the two-hop predicate
`T0: 'v` is silently dropped by the cycle guard, because `C`'s stored
provenance stack for `U: 'c` meanwhile routes through `V`; the smaller
recomputed set never replaces the stored one, so the stored set and the
recomputed set differ at the fixed point. -/
theorem fixed_point_not_identical_cex :
    infer_predicates cvProg = some cvFinal ∧
      computeItem cvProg cvFinal vDefn ≠
        (globalLookup cvFinal vDefn.did).getD [] := by
  refine ⟨by decide, by decide⟩

/-- C2: on the program `Foo<'a,T> { field1: Bar<'a,T> }`,
`Bar<'b,U> { field2: &'b U }`, the final Global Store maps `Foo` to exactly
the single predicate `T: 'a` (the `Foo`-indexed parameter 1 outliving
`Foo`'s region parameter 0) and `Bar` to exactly the single predicate
`U: 'b`. -/
theorem transitive_substitution_two_hop :
    infer_predicates fooBarProg = some fooBarFinal ∧
      globalLookup fooBarFinal fooDefn.did =
        some [((GenArg.tparam 1 false, Region.rparam 0), [(1, 20), (0, 10)])] ∧
      globalLookup fooBarFinal barDefn.did =
        some [((GenArg.tparam 1 false, Region.rparam 0), [(1, 20)])] := by
  refine ⟨by decide, by decide, by decide⟩

/-- C4: the round loop of `infer_predicates` terminates on every finite
definition set — the fuelled rendering of the `'outer` loop never runs out
with the supplied fuel, because the per-definition predicate universe is
finite (`Ulevel` at the cycle-guard-bounded stack depth) and every
progress round strictly increases the total stored size. -/
theorem infer_predicates_terminates (p : Program) :
    (infer_predicates p).isSome = true := by
  unfold infer_predicates
  exact inferLoop_isSome p (inferFuel p) [] (GOk_nil p) (Nat.le_add_right _ _)

/-- C6, amended: across successive rounds every definition's stored
predicate-set size is non-decreasing (an entry is replaced only by a
strictly larger recomputed set) and the store never loses an entry.  (The
claim's stronger superset form — that every recomputed set contains the
previously stored set — fails: see `monotonic_growth_superset_cex`.) -/
theorem monotonic_growth_rounds (p : Program) (n : Nat) :
    (∀ d, gSize (roundIter p n) d ≤ gSize (roundIter p (n + 1)) d) ∧
      (∀ d, (globalLookup (roundIter p n) d).isSome = true →
        (globalLookup (roundIter p (n + 1)) d).isSome = true) := by
  have hspec := inferRound_spec p (roundIter p n) (GOk_roundIter p n)
  exact ⟨hspec.1, hspec.2.2.2⟩

/-- Witness for C6: concrete growth facts on `cvProg`, round 1 → 2. -/
theorem monotonic_growth_rounds_witness :
    gSize (roundIter cvProg 1) 0 ≤ gSize (roundIter cvProg 2) 0 ∧
      (globalLookup (roundIter cvProg 2) 0).isSome = true :=
  ⟨(monotonic_growth_rounds cvProg 1).1 0,
    (monotonic_growth_rounds cvProg 1).2 0 (by decide)⟩

/-- C6, counterexample: on `cvProg`, the set the last round recomputes for
`V` against the final store is not a superset of `V`'s stored set — the
stored key `T0: 'v` is absent from the recomputed set. -/
theorem monotonic_growth_superset_cex :
    infer_predicates cvProg = some cvFinal ∧
      rpHasKey ((globalLookup cvFinal vDefn.did).getD [])
        (GenArg.tparam 1 false, Region.rparam 0) = true ∧
      rpHasKey (computeItem cvProg cvFinal vDefn)
        (GenArg.tparam 1 false, Region.rparam 0) = false := by
  refine ⟨by decide, by decide, by decide⟩

/-- C8: every provenance stack stored in the Global Store after any number
of rounds mentions each definition id at most once, so its length never
exceeds the number of definitions. -/
theorem provenance_stacks_distinct (p : Program) (n : Nat) :
    ∀ x ∈ roundIter p n, ∀ e ∈ x.2,
      (stackDids e.2).Nodup ∧ e.2.length ≤ p.adts.length := by
  intro x hx e he
  have hG := GOk_roundIter p n
  have heok := ((hG.2 x hx).2).2 e he
  refine ⟨heok.1, ?_⟩
  have h1 : (stackDids e.2).length ≤ (adtDids p).dedup.length :=
    nodup_length_le_dedup heok.1 heok.2.1
  have h2 : (adtDids p).dedup.length ≤ (adtDids p).length :=
    (List.dedup_sublist _).length_le
  have h3 : (adtDids p).length = p.adts.length := by simp [adtDids]
  have h4 : (stackDids e.2).length = e.2.length := by simp [stackDids]
  omega

/-- Witness for C8: the two-hop stack stored for `Foo` after two rounds of
the `Foo`/`Bar` program. -/
theorem provenance_stacks_distinct_witness :
    (stackDids [(1, 20), (0, 10)]).Nodup ∧
      ([((1 : DefId), (20 : Span)), (0, 10)] : DefStack).length ≤
        fooBarProg.adts.length :=
  provenance_stacks_distinct fooBarProg 2
    (0, [((GenArg.tparam 1 false, Region.rparam 0), [(1, 20), (0, 10)])])
    (by decide)
    ((GenArg.tparam 1 false, Region.rparam 0), [(1, 20), (0, 10)])
    (by decide)

/-- C10: a trait-object field with no principal trait (only auto traits)
contributes nothing: the `ty::Dynamic` arm does nothing when
`obj.principal()` is `None`, both at the single-node level and for a field
of exactly that type. -/
theorem dyn_no_principal_contributes_nothing (p : Program) (d : DefId)
    (span : Span) (g : Global) (rp : RequiredPredicates) :
    processArg p d span g rp (GenArg.dynamic none) = rp ∧
      insert_required_predicates_to_be_wf p d (GenArg.dynamic none) span g rp = rp :=
  ⟨rfl, rfl⟩

/-- C3: walking a field applying a nested definition `d'` whose stored
entry is `(P, S)`, the substituted predicate is discarded exactly when the
owning definition's id occurs in `S`, and otherwise inserted with
provenance `S ++ [(owning definition, field location)]`; the discard is
silent (the result is simply the unchanged set, never an error).  The
substitution arguments are taken inert so that the walk of the field type
contributes no further nodes. -/
theorem cycle_truncation (p : Program) (d d' : DefId) (substs : List GenArg)
    (span : Span) (g : Global) (rp : RequiredPredicates) (P : Pred) (S : DefStack)
    (hlook : globalLookup g d' = some [(P, S)])
    (hex : explicitList p d' = [])
    (hsub : ∀ x ∈ substs, inertArg x = true) :
    insert_required_predicates_to_be_wf p d (GenArg.adt d' substs) span g rp =
      (if d ∈ stackDids S then rp
       else rpInsert rp (substPred substs P) (S ++ [(d, span)])) ∧
    (d ∈ stackDids S →
      insert_required_predicates_to_be_wf p d (GenArg.adt d' substs) span g rp
        = rp) := by
  have hce : ∀ rp₀, check_explicit_predicates p d d' substs none rp₀ = rp₀ := by
    intro rp₀
    unfold check_explicit_predicates explicit_predicates_of
    rw [hex]
    rfl
  have hmain :
      insert_required_predicates_to_be_wf p d (GenArg.adt d' substs) span g rp =
        if d ∈ stackDids S then rp
        else rpInsert rp (substPred substs P) (S ++ [(d, span)]) := by
    unfold insert_required_predicates_to_be_wf
    have hwalk : walkArg (GenArg.adt d' substs) = GenArg.adt d' substs :: substs := by
      show GenArg.adt d' substs :: walkArgs substs = _
      rw [walkArgs_inert hsub]
    rw [hwalk, List.foldl_cons, foldl_processArg_inert hsub]
    unfold processArg
    dsimp only
    rw [hlook]
    dsimp only
    rw [List.foldl_cons, List.foldl_nil, hce]
    by_cases hd : d ∈ stackDids S
    · rw [if_pos (List.any_eq_true.mpr ⟨d, hd, by simp⟩), if_pos hd]
    · rw [if_neg, if_neg hd]
      · rfl
      · intro hany
        rcases List.any_eq_true.mp hany with ⟨x, hx, hxd⟩
        simp only [decide_eq_true_eq] at hxd
        exact hd (hxd ▸ hx)
  exact ⟨hmain, fun hd => by rw [hmain, if_pos hd]⟩

/-- Witness for C3: a one-entry store whose stack does not mention the
owner, so the substituted predicate is inserted with the extended stack. -/
theorem cycle_truncation_witness :
    (insert_required_predicates_to_be_wf fooBarProg 0
        (GenArg.adt 5 [GenArg.lifetime (Region.rparam 0)]) 99
        [(5, [((GenArg.tparam 1 false, Region.rstatic), [(3, 7)])])] [] =
      if (0 : DefId) ∈ stackDids [(3, 7)] then ([] : RequiredPredicates)
      else rpInsert [] (substPred [GenArg.lifetime (Region.rparam 0)]
            (GenArg.tparam 1 false, Region.rstatic)) ([(3, 7)] ++ [(0, 99)])) ∧
    ((0 : DefId) ∈ stackDids [(3, 7)] →
      insert_required_predicates_to_be_wf fooBarProg 0
        (GenArg.adt 5 [GenArg.lifetime (Region.rparam 0)]) 99
        [(5, [((GenArg.tparam 1 false, Region.rstatic), [(3, 7)])])] [] = []) :=
  cycle_truncation fooBarProg 0 5 [GenArg.lifetime (Region.rparam 0)] 99
    [(5, [((GenArg.tparam 1 false, Region.rstatic), [(3, 7)])])] []
    (GenArg.tparam 1 false, Region.rstatic) [(3, 7)]
    (by decide) (by decide) (by decide)

/-- C7: a reference node `&'a T` anywhere in the walk of one of a
definition's fields puts the predicate `(T, 'a)` into that definition's
recomputed predicate set; the emission itself carries the one-element
provenance `[(owning definition, field location)]` (retained verbatim when
the key is new); and the traversal continues into `T` (the walk of the
reference node contains the walk of `T`). -/
theorem direct_reference_rule (p : Program) (g : Global) (a : AdtDefn)
    (f : FieldDef) (r : Region) (t : GenArg) (rp : RequiredPredicates)
    (d : DefId) (span : Span)
    (hf : f ∈ a.fields)
    (hmem : GenArg.ref r t ∈ walkArg f.ty)
    (hfresh : rpHasKey rp (t, r) = false) :
    rpHasKey (computeItem p g a) (t, r) = true ∧
      rpLookup (processArg p d span g rp (GenArg.ref r t)) (t, r) =
        some [(d, span)] ∧
      walkArg (GenArg.ref r t) =
        GenArg.ref r t :: GenArg.lifetime r :: walkArg t := by
  refine ⟨?_, ?_, rfl⟩
  · unfold computeItem
    have hfield : ∀ rp₀ : RequiredPredicates,
        rpHasKey (insert_required_predicates_to_be_wf p a.did f.ty f.span g rp₀)
          (t, r) = true := by
      intro rp₀
      unfold insert_required_predicates_to_be_wf
      apply foldl_estab (P := fun rp => rpHasKey rp (t, r) = true)
        (processArg p a.did f.span g) (walkArg f.ty) (GenArg.ref r t) hmem
        (fun b a' _ hb => processArg_hasKey_mono a' hb)
        (fun b => rpHasKey_rpInsert_self b (t, r) _)
    apply foldl_estab
      (P := fun rp => rpHasKey rp (t, r) = true)
      (fun rp f' => insert_required_predicates_to_be_wf p a.did f'.ty f'.span g rp)
      a.fields f hf
      (fun b f' _ hb => walker_hasKey_mono hb)
      (fun b => hfield b)
  · show rpLookup (rpInsert rp (t, r) ((none : Option DefStack).getD [] ++ [(d, span)]))
      (t, r) = some [(d, span)]
    exact rpLookup_rpInsert_new _ (by simp [hfresh])

/-- Witness for C7: the reference field of `Bar` in the `Foo`/`Bar`
program. -/
theorem direct_reference_rule_witness :
    rpHasKey (computeItem fooBarProg [] barDefn)
        (GenArg.tparam 1 false, Region.rparam 0) = true ∧
      rpLookup (processArg fooBarProg 1 20 [] []
          (GenArg.ref (Region.rparam 0) (GenArg.tparam 1 false)))
        (GenArg.tparam 1 false, Region.rparam 0) = some [(1, 20)] ∧
      walkArg (GenArg.ref (Region.rparam 0) (GenArg.tparam 1 false)) =
        GenArg.ref (Region.rparam 0) (GenArg.tparam 1 false) ::
          GenArg.lifetime (Region.rparam 0) ::
            walkArg (GenArg.tparam 1 false) :=
  direct_reference_rule fooBarProg [] barDefn
    { ty := GenArg.ref (Region.rparam 0) (GenArg.tparam 1 false), span := 20 }
    (Region.rparam 0) (GenArg.tparam 1 false) [] 1 20
    (by decide) (by decide) (by decide)

/-- C5: walking a trait-object field `dyn Trait<args>`, every explicit
predicate of the principal trait whose (unsubstituted) subject walks to
the `Self` placeholder is silently dropped — the containment check runs
before the substitution `[Self ↦ usize] ++ args` is applied — and no
predicate mentioning the `Self` placeholder ever reaches the owning
definition's predicate set, provided the field's arguments (and the set so
far) are `Self`-free, as they always are outside trait declarations. -/
theorem trait_object_self_filtering (p : Program) (d tr : DefId)
    (args : List GenArg) (span : Span) (g : Global) (rp : RequiredPredicates)
    (b : ExplicitBound)
    (hargs : ∀ x ∈ args, mentionsSelf x = false)
    (hrp : ∀ e ∈ rp, mentionsSelf e.1.1 = false) :
    (∀ e ∈ processArg p d span g rp (GenArg.dynamic (some (tr, args))),
        mentionsSelf e.1.1 = false) ∧
    (explicitList p tr = [b] → isLifetimeOrConst b.1.1 = false →
      mentionsSelf b.1.1 = true →
      processArg p d span g rp (GenArg.dynamic (some (tr, args))) = rp) := by
  have hs : ∀ x ∈ GenArg.usize :: args, mentionsSelf x = false := by
    intro x hx
    rcases List.mem_cons.mp hx with h | h
    · rw [h]
      rfl
    · exact hargs x h
  constructor
  · show ∀ e ∈ check_explicit_predicates p d tr (GenArg.usize :: args)
        (some selfTy) rp, mentionsSelf e.1.1 = false
    unfold check_explicit_predicates
    refine foldl_inv
      (P := fun rp : RequiredPredicates => ∀ e ∈ rp, mentionsSelf e.1.1 = false)
      _ _ _ hrp ?_
    intro rp' b' _ hP
    unfold ceStep
    split
    · exact hP
    · rename_i hcond
      split
      · exact hP
      · intro e he
        rcases mem_rpInsert he with h | h
        · exact hP e h
        · rw [h]
          show mentionsSelf (substArg (GenArg.usize :: args) b'.1.1) = false
          apply subject_selfFree_after_subst hs
          by_cases hlc : isLifetimeOrConst b'.1.1 = true
          · exact Or.inl hlc
          · right
            have hlcf : isLifetimeOrConst b'.1.1 = false := by
              revert hlc
              cases isLifetimeOrConst b'.1.1 <;> simp
            unfold mentionsSelf
            revert hcond
            simp [hlcf]
            intro hnc x hx hxe
            exact hnc (hxe ▸ hx)
  · intro hbl hlc hself
    show check_explicit_predicates p d tr (GenArg.usize :: args)
      (some selfTy) rp = rp
    have hepo : explicit_predicates_of p tr = [(b.1, [(tr, b.2)])] := by
      unfold explicit_predicates_of
      rw [hbl]
      rfl
    unfold check_explicit_predicates
    rw [hepo, List.foldl_cons, List.foldl_nil]
    unfold ceStep
    rw [if_pos]
    show (match (some selfTy : Option GenArg) with
      | some sty => !isLifetimeOrConst b.1.1 && (walkArg b.1.1).any (fun a => a = sty)
      | none => false) = true
    dsimp only
    rw [hlc]
    unfold mentionsSelf at hself
    simpa using hself

/-- Witness for C5: the `dyn Trait<'x>` field of `dynProg`, whose trait
declares `Self: 'a`: nothing is contributed, and every entry of the (empty)
result is `Self`-free. -/
theorem trait_object_self_filtering_witness :
    (∀ e ∈ processArg dynProg 2 40 [] []
        (GenArg.dynamic (some (7, [GenArg.lifetime (Region.rparam 0)]))),
      mentionsSelf e.1.1 = false) ∧
    processArg dynProg 2 40 [] []
        (GenArg.dynamic (some (7, [GenArg.lifetime (Region.rparam 0)]))) = [] := by
  have h := trait_object_self_filtering dynProg 2 7
    [GenArg.lifetime (Region.rparam 0)] 40 [] []
    ((selfTy, Region.rparam 1), 30)
    (by decide) (by intro e he; cases he)
  exact ⟨h.1, h.2 (by decide) (by decide) (by decide)⟩

/-- C9: when every entry of the explicit predicate cache for the queried
definition carries a one-element provenance stack — which
`explicit_predicates_of` guarantees by construction —
`check_explicit_predicates` never panics: the `stack.last().unwrap()`
extraction, modelled by `check_explicit_predicates_opt`, always succeeds
and agrees with the total rendering. -/
theorem check_explicit_no_panic (p : Program) (self_did def_id : DefId)
    (substs : List GenArg) (ist : Option GenArg) (rp : RequiredPredicates)
    (h : ∀ e ∈ explicit_predicates_of p def_id, e.2.length = 1) :
    (check_explicit_predicates_opt p self_did def_id substs ist rp).isSome = true ∧
      check_explicit_predicates_opt p self_did def_id substs ist rp =
        some (check_explicit_predicates p self_did def_id substs ist rp) := by
  have heq := @check_explicit_opt_eq p self_did def_id substs ist rp h
  refine ⟨?_, heq⟩
  rw [heq]
  rfl

/-- Witness for C9: the nonempty explicit cache of `dynProg`'s trait. -/
theorem check_explicit_no_panic_witness :
    (check_explicit_predicates_opt dynProg 2 7
        [GenArg.usize, GenArg.lifetime (Region.rparam 0)] none []).isSome = true ∧
      check_explicit_predicates_opt dynProg 2 7
          [GenArg.usize, GenArg.lifetime (Region.rparam 0)] none [] =
        some (check_explicit_predicates dynProg 2 7
          [GenArg.usize, GenArg.lifetime (Region.rparam 0)] none []) :=
  check_explicit_no_panic dynProg 2 7
    [GenArg.usize, GenArg.lifetime (Region.rparam 0)] none [] (by decide)

end RustcOutlives
